import Mathlib

/-!
Verification of the StockCast repository.

Shallow embeddings of

* the Monte Carlo engine `run_monte_carlo`
  (file `src/Monte_Carlo/monte-carlo-method.py`), and
* the cleaning stage `clean_stock_data`
  (file `src/Transform/main.py`).

Modelling conventions:

* Python floats are modelled as real numbers in the simulation engine, whose
  claims are algebraic identities, and as rationals in the cleaning pipeline,
  whose operations are only comparisons and truncation, so that every
  definition there stays decidable and executable.
* A raised Python exception is modelled as `Except.error` carrying the
  exception's name; the simulation loop aborts at the first raised exception
  exactly as the Python loop does.
* The downloaded adjusted-close table `yf.download(...)["Adj Close"]` is an
  input of the embedding: a list of rows, one optional price per ticker
  (`none` models a NaN cell).  `.dropna()` drops the rows containing a `none`.
* `np.random.multivariate_normal(mean_returns, cov_matrix, num_days)` is
  modelled by an oracle `rng` received as a parameter: the source draws from
  the global `np.random` state, so the oracle is indexed by the call number
  (the simulation index) together with the arguments the source passes.
  The oracle is a total function and does not model exceptions internal to
  the sampling library; claims about inputs that degenerate the statistics
  are phrased so as not to depend on the sampler returning.
-/

namespace StockCast

/-! ### §1  The Monte Carlo engine -/

/-- One output record of `run_monte_carlo` (one row of the returned
`pd.DataFrame`), with the ten columns built in the source's loop body. -/
structure OutcomeRow where
  id : ℕ
  ticker : String
  simulation_id : ℕ
  year : ℕ
  starting_value : ℝ
  ending_value : ℝ
  annual_return : ℝ
  cumulative_return : ℝ
  volatility : ℝ
  probability : ℝ

instance : Inhabited OutcomeRow :=
  ⟨{ id := 0, ticker := "", simulation_id := 0, year := 0, starting_value := 0,
     ending_value := 0, annual_return := 0, cumulative_return := 0,
     volatility := 0, probability := 0 }⟩

/-- Effectful map over a list in the `Except` monad, aborting at the first
error: the model of a Python loop body that may raise. -/
def exceptMap {α β ε : Type*} (f : α → Except ε β) : List α → Except ε (List β)
  | [] => .ok []
  | a :: as =>
    match f a with
    | .error e => .error e
    | .ok b =>
      match exceptMap f as with
      | .error e => .error e
      | .ok bs => .ok (b :: bs)

/-- Sequence one downloaded row: `some` of the fully populated row, `none` if
any cell is missing. -/
def seqRow : List (Option ℝ) → Option (List ℝ)
  | [] => some []
  | none :: _ => none
  | some x :: rest => (seqRow rest).map (fun xs => x :: xs)

/-- `DataFrame.dropna()` on the downloaded table: keep exactly the rows with
no missing cell. -/
def dropnaRows (raw : List (List (Option ℝ))) : List (List ℝ) :=
  raw.filterMap seqRow

/-- `np.log(price_data / price_data.shift(1)).dropna()`: row `t` of the result
is the entrywise `log (price[t+1] / price[t])`; the first row of the quotient
(which pairs with the shifted-in missing row) is dropped. -/
noncomputable def dailyReturns (prices : List (List ℝ)) : List (List ℝ) :=
  (prices.tail.zip prices).map
    (fun rp => (rp.1.zip rp.2).map (fun cp => Real.log (cp.1 / cp.2)))

/-- `daily_returns.mean()` for column `i` (pandas mean: sum over count). -/
noncomputable def colMean (m : List (List ℝ)) (i : ℕ) : ℝ :=
  (m.map (fun row => row.getD i 0)).sum / m.length

/-- `daily_returns.cov()` entry `(i, j)` (pandas covariance: unbiased,
denominator `n - 1`). -/
noncomputable def colCov (m : List (List ℝ)) (i j : ℕ) : ℝ :=
  (m.map (fun row =>
      (row.getD i 0 - colMean m i) * (row.getD j 0 - colMean m j))).sum /
    ((m.length : ℝ) - 1)

/-- `mean_returns` as passed to the sampler: the per-column means of the
daily log returns of the cleaned download. -/
noncomputable def meanReturns (raw : List (List (Option ℝ))) (N : ℕ) : List ℝ :=
  (List.range N).map (colMean (dailyReturns (dropnaRows raw)))

/-- `cov_matrix` as passed to the sampler. -/
noncomputable def covMatrix (raw : List (List (Option ℝ))) (N : ℕ) :
    List (List ℝ) :=
  (List.range N).map
    (fun i => (List.range N).map (colCov (dailyReturns (dropnaRows raw)) i))

/-- The random oracle standing for `np.random.multivariate_normal`: the call
for simulation `sim` receives the mean vector, the covariance matrix and
`num_days`, and yields a `num_days × N` matrix of draws.  The oracle is a
total function: it does not model failures internal to numpy (in particular,
`np.random.multivariate_normal` can itself raise `LinAlgError` when handed
the all-NaN covariance produced by an empty aligned table), so statements
about that degenerate scenario are phrased so as not to depend on the
sampler returning. -/
abbrev Rng : Type :=
  ℕ → List ℝ → List (List ℝ) → ℕ → List (List ℝ)

/-- `simulated = np.random.multivariate_normal(mean_returns, cov_matrix,
num_days)` for simulation index `sim`, with `num_days = years * 252`. -/
noncomputable def simPath (rng : Rng) (raw : List (List (Option ℝ)))
    (N years sim : ℕ) : List (List ℝ) :=
  rng sim (meanReturns raw N) (covMatrix raw N) (years * 252)

/-- `simulated[:, i]`: column `i` of a simulated path. -/
def tickerColumn (simulated : List (List ℝ)) (i : ℕ) : List ℝ :=
  simulated.map (fun row => row.getD i 0)

/-- `np.std`: the population standard deviation (denominator `n`, not
`n - 1`). -/
noncomputable def npStd (l : List ℝ) : ℝ :=
  Real.sqrt ((l.map (fun x => (x - l.sum / l.length) ^ 2)).sum / l.length)

/-- The body of the inner loop of `run_monte_carlo` for ticker index `i` of
simulation `sim`: builds one output record, or raises.  The two `.error`
branches model Python's `ZeroDivisionError`: `ending_val / starting_val`
raises when `starting_val == 0.0`, and `1 / years` raises when `years == 0`
(evaluated in that order inside the `annual_return` line).  The `id` field is
filled with the running counter afterwards, see `run_monte_carlo`. -/
noncomputable def simRow (N : ℕ) (portfolio_value : ℝ)
    (years num_simulations : ℕ) (simulated : List (List ℝ)) (sim i : ℕ)
    (ticker : String) : Except String OutcomeRow :=
  let starting_val := portfolio_value / N
  let ticker_returns := tickerColumn simulated i
  let growth_factors := ticker_returns.map Real.exp
  let ending_val := starting_val * growth_factors.prod
  if starting_val = 0 then .error "ZeroDivisionError"
  else if years = 0 then .error "ZeroDivisionError"
  else
    .ok
      { id := 0
        ticker := ticker
        simulation_id := sim
        year := years
        starting_value := starting_val
        ending_value := ending_val
        annual_return := (ending_val / starting_val) ^ ((1 : ℝ) / years) - 1
        cumulative_return := ending_val / starting_val - 1
        volatility := npStd ticker_returns * Real.sqrt 252
        probability := 1 / num_simulations }

/-- The engine `run_monte_carlo`.  The outer loop ranges over simulation
indices, the inner loop over `enumerate(tickers)`; every appended record
receives the value of the running counter `row_id`, which is incremented once
per appended record and therefore equals the record's position in the flat
emission order — modelled by numbering the flattened list of records. -/
noncomputable def run_monte_carlo (rng : Rng) (raw : List (List (Option ℝ)))
    (tickers : List String) (portfolio_value : ℝ)
    (years num_simulations : ℕ) : Except String (List OutcomeRow) :=
  (exceptMap
      (fun sim =>
        exceptMap
          (fun p =>
            simRow tickers.length portfolio_value years num_simulations
              (simPath rng raw tickers.length years sim) sim p.1 p.2)
          tickers.enum)
      (List.range num_simulations)).map
    (fun rowss => rowss.flatten.enum.map (fun p => { p.2 with id := p.1 }))

/-- Closed form of the record emitted for simulation `s` and ticker index
`i`: the loop-carried counter replaced by `s * N + i`. -/
noncomputable def mcRow (rng : Rng) (raw : List (List (Option ℝ)))
    (tickers : List String) (portfolio_value : ℝ)
    (years num_simulations s i : ℕ) : OutcomeRow :=
  let N := tickers.length
  let col := tickerColumn (simPath rng raw N years s) i
  let starting_val := portfolio_value / N
  let ending_val := starting_val * (col.map Real.exp).prod
  { id := s * N + i
    ticker := tickers.getD i ""
    simulation_id := s
    year := years
    starting_value := starting_val
    ending_value := ending_val
    annual_return := (ending_val / starting_val) ^ ((1 : ℝ) / years) - 1
    cumulative_return := ending_val / starting_val - 1
    volatility := npStd col * Real.sqrt 252
    probability := 1 / num_simulations }

/-- A fixed trivial oracle, used to instantiate witnesses. -/
def rng0 : Rng := fun _ _ _ _ => []

/-! ### §2  Basic lemmas about the engine's loop structure -/

theorem exceptMap_ok_length {α β ε : Type*} {f : α → Except ε β} :
    ∀ {l : List α} {ys : List β}, exceptMap f l = .ok ys → ys.length = l.length
  | [], ys, h => by
    simp only [exceptMap, Except.ok.injEq] at h
    simp [← h]
  | a :: as, ys, h => by
    simp only [exceptMap] at h
    cases hfa : f a with
    | error e => rw [hfa] at h; exact absurd h (by simp)
    | ok b =>
      rw [hfa] at h
      cases hrec : exceptMap f as with
      | error e => rw [hrec] at h; exact absurd h (by simp)
      | ok bs =>
        rw [hrec] at h
        simp only [Except.ok.injEq] at h
        simp [← h, exceptMap_ok_length hrec]

theorem exceptMap_ok_getD {α β ε : Type*} {f : α → Except ε β} (da : α) (db : β) :
    ∀ {l : List α} {ys : List β}, exceptMap f l = .ok ys →
      ∀ k, k < l.length → f (l.getD k da) = .ok (ys.getD k db)
  | [], _, _, k, hk => absurd hk (by simp)
  | a :: as, ys, h, k, hk => by
    simp only [exceptMap] at h
    cases hfa : f a with
    | error e => rw [hfa] at h; exact absurd h (by simp)
    | ok b =>
      rw [hfa] at h
      cases hrec : exceptMap f as with
      | error e => rw [hrec] at h; exact absurd h (by simp)
      | ok bs =>
        rw [hrec] at h
        simp only [Except.ok.injEq] at h
        subst h
        match k with
        | 0 => simpa using hfa
        | k + 1 =>
          simp only [List.getD_cons_succ]
          exact exceptMap_ok_getD da db hrec k (by simpa using hk)

theorem exceptMap_ok_of_forall {α β ε : Type*} {f : α → Except ε β} :
    ∀ {l : List α}, (∀ a ∈ l, ∃ b, f a = .ok b) →
      ∃ ys, exceptMap f l = .ok ys
  | [], _ => ⟨[], rfl⟩
  | a :: as, h => by
    obtain ⟨b, hb⟩ := h a (List.mem_cons_self a as)
    obtain ⟨bs, hbs⟩ := exceptMap_ok_of_forall (fun x hx => h x (List.mem_cons_of_mem a hx))
    exact ⟨b :: bs, by simp [exceptMap, hb, hbs]⟩

theorem exceptMap_error_cons {α β ε : Type*} {f : α → Except ε β} {a : α}
    {as : List α} {e : ε} (h : f a = .error e) :
    exceptMap f (a :: as) = .error e := by
  simp [exceptMap, h]

theorem flatten_length_uniform {α : Type*} {N : ℕ} :
    ∀ {L : List (List α)}, (∀ x ∈ L, x.length = N) →
      L.flatten.length = L.length * N
  | [], _ => by simp
  | x :: L, h => by
    simp only [List.flatten_cons, List.length_append, List.length_cons,
      flatten_length_uniform (fun y hy => h y (List.mem_cons_of_mem x hy)),
      h x (List.mem_cons_self x L)]
    ring

theorem flatten_getD_uniform {α : Type*} {N : ℕ} (d : α) :
    ∀ {L : List (List α)}, (∀ x ∈ L, x.length = N) →
      ∀ {s i : ℕ}, s < L.length → i < N →
        L.flatten.getD (s * N + i) d = (L.getD s []).getD i d
  | [], _, s, _, hs, _ => absurd hs (by simp)
  | x :: L, h, s, i, hs, hi => by
    have hx : x.length = N := h x (List.mem_cons_self x L)
    match s with
    | 0 =>
      simp only [List.flatten_cons, Nat.zero_mul, Nat.zero_add, List.getD_cons_zero]
      exact List.getD_append x L.flatten d i (by omega)
    | s + 1 =>
      have hge : x.length ≤ (s + 1) * N + i := by
        rw [hx]; calc N ≤ (s + 1) * N := Nat.le_mul_of_pos_left N (Nat.succ_pos s)
          _ ≤ (s + 1) * N + i := Nat.le_add_right _ _
      rw [List.flatten_cons, List.getD_append_right x L.flatten d _ hge,
        List.getD_cons_succ]
      have harith : (s + 1) * N + i - x.length = s * N + i := by
        rw [hx]; rw [Nat.succ_mul]; omega
      rw [harith]
      exact flatten_getD_uniform d (fun y hy => h y (List.mem_cons_of_mem x hy))
        (by simpa using hs) hi

theorem enum_assign_getD {l : List OutcomeRow} {k : ℕ} (hk : k < l.length) :
    (l.enum.map (fun p => { p.2 with id := p.1 })).getD k default =
      { l.getD k default with id := k } := by
  have h1 : k < (l.enum.map (fun p : ℕ × OutcomeRow => { p.2 with id := p.1 })).length := by
    simpa using hk
  rw [List.getD_eq_getElem _ _ h1, List.getD_eq_getElem _ _ hk]
  simp [List.getElem_enum]

/-- The record produced by a successful `simRow` call. -/
theorem simRow_ok {N : ℕ} {pv : ℝ} {years S : ℕ} {simulated : List (List ℝ)}
    {sim i : ℕ} {tk : String} {r : OutcomeRow}
    (h : simRow N pv years S simulated sim i tk = .ok r) :
    r = { id := 0
          ticker := tk
          simulation_id := sim
          year := years
          starting_value := pv / N
          ending_value := pv / N * ((tickerColumn simulated i).map Real.exp).prod
          annual_return :=
            (pv / N * ((tickerColumn simulated i).map Real.exp).prod / (pv / N)) ^
              ((1 : ℝ) / years) - 1
          cumulative_return :=
            pv / N * ((tickerColumn simulated i).map Real.exp).prod / (pv / N) - 1
          volatility := npStd (tickerColumn simulated i) * Real.sqrt 252
          probability := 1 / S } := by
  simp only [simRow] at h
  split at h
  · exact absurd h (by simp)
  · split at h
    · exact absurd h (by simp)
    · simpa using h.symm

/-- A `simRow` call succeeds as soon as the two division guards hold. -/
theorem simRow_isOk {N : ℕ} {pv : ℝ} {years S : ℕ} {simulated : List (List ℝ)}
    {sim i : ℕ} {tk : String} (hN : N ≠ 0) (hpv : pv ≠ 0) (hy : years ≠ 0) :
    ∃ r, simRow N pv years S simulated sim i tk = .ok r := by
  have hsv : pv / (N : ℝ) ≠ 0 :=
    div_ne_zero hpv (Nat.cast_ne_zero.mpr hN)
  simp only [simRow]
  rw [if_neg hsv, if_neg hy]
  exact ⟨_, rfl⟩

theorem except_map_ok {ε α β : Type*} {E : Except ε α} {g : α → β} {t : β}
    (h : E.map g = .ok t) : ∃ x, E = .ok x ∧ t = g x := by
  cases E with
  | error e => simp [Except.map] at h
  | ok x => exact ⟨x, rfl, by simpa [Except.map] using h.symm⟩

/-- Master characterization of a successful run: the output has
`num_simulations * N` rows and the row at flat position `s * N + i` is the
closed-form record `mcRow` for simulation `s` and ticker index `i`. -/
theorem run_mc_ok_spec {rng : Rng} {raw : List (List (Option ℝ))}
    {tickers : List String} {pv : ℝ} {years S : ℕ} {t : List OutcomeRow}
    (h : run_monte_carlo rng raw tickers pv years S = .ok t) :
    t.length = S * tickers.length ∧
      ∀ s i, s < S → i < tickers.length →
        t.getD (s * tickers.length + i) default =
          mcRow rng raw tickers pv years S s i := by
  unfold run_monte_carlo at h
  obtain ⟨rowss, houter, ht⟩ := except_map_ok h
  have hlen_outer : rowss.length = S :=
    (exceptMap_ok_length houter).trans (List.length_range S)
  have hInner : ∀ s, s < S →
      exceptMap
        (fun p =>
          simRow tickers.length pv years S
            (simPath rng raw tickers.length years s) s p.1 p.2)
        tickers.enum = .ok (rowss.getD s []) := by
    intro s hs
    have hrange : (List.range S).getD s 0 = s := by
      rw [List.getD_eq_getElem _ _ (by simpa using hs)]
      exact List.getElem_range _ _
    have := exceptMap_ok_getD 0 [] houter s (by simpa using hs)
    rwa [hrange] at this
  have hUnif : ∀ x ∈ rowss, x.length = tickers.length := by
    intro x hx
    obtain ⟨s, hs, hxs⟩ := List.mem_iff_getElem.mp hx
    have hgd : rowss.getD s [] = x := by
      rw [List.getD_eq_getElem _ _ hs]; exact hxs
    have := exceptMap_ok_length (hInner s (hlen_outer ▸ hs))
    rw [hgd] at this
    simpa using this
  have hflatlen : rowss.flatten.length = S * tickers.length := by
    rw [flatten_length_uniform hUnif, hlen_outer]
  constructor
  · rw [ht]
    simpa using hflatlen
  · intro s i hs hi
    have hk : s * tickers.length + i < rowss.flatten.length := by
      rw [hflatlen]
      calc s * tickers.length + i < s * tickers.length + tickers.length := by omega
        _ = (s + 1) * tickers.length := by ring
        _ ≤ S * tickers.length := Nat.mul_le_mul_right _ (by omega)
    rw [ht, enum_assign_getD hk,
      flatten_getD_uniform default hUnif (by rwa [hlen_outer]) hi]
    have henum : tickers.enum.getD i (0, "") = (i, tickers.getD i "") := by
      rw [List.getD_eq_getElem _ _ (by simpa using hi),
        List.getD_eq_getElem _ _ hi]
      simp [List.getElem_enum]
    have hel := exceptMap_ok_getD (0, "") default (hInner s hs) i (by simpa using hi)
    rw [henum] at hel
    rw [simRow_ok hel]
    simp only [mcRow]

/-- A run succeeds whenever `portfolio_value ≠ 0` and `years ≠ 0` (the only
two exceptions the loop body can raise are the two division guards). -/
theorem run_mc_isOk (rng : Rng) (raw : List (List (Option ℝ)))
    (tickers : List String) {pv : ℝ} {years : ℕ} (S : ℕ)
    (hpv : pv ≠ 0) (hy : years ≠ 0) :
    ∃ t, run_monte_carlo rng raw tickers pv years S = .ok t := by
  have hN : ∀ p : ℕ × String, p ∈ tickers.enum → tickers.length ≠ 0 := by
    intro p hp h0
    rw [List.length_eq_zero] at h0
    subst h0
    simp at hp
  obtain ⟨rowss, houter⟩ :=
    exceptMap_ok_of_forall
      (f := fun sim =>
        exceptMap
          (fun p =>
            simRow tickers.length pv years S
              (simPath rng raw tickers.length years sim) sim p.1 p.2)
          tickers.enum)
      (l := List.range S)
      (fun sim _ =>
        exceptMap_ok_of_forall (fun p hp => simRow_isOk (hN p hp) hpv hy))
  refine ⟨rowss.flatten.enum.map (fun p => { p.2 with id := p.1 }), ?_⟩
  unfold run_monte_carlo
  rw [houter]
  rfl

/-! ### §3  Further helper lemmas for the claims -/

theorem exceptMap_congr_ok {α β ε : Type*} {f : α → Except ε β} {c : β} :
    ∀ {l : List α}, (∀ a ∈ l, f a = .ok c) →
      exceptMap f l = .ok (l.map (fun _ => c))
  | [], _ => rfl
  | a :: as, h => by
    simp [exceptMap, h a (List.mem_cons_self a as),
      exceptMap_congr_ok (fun x hx => h x (List.mem_cons_of_mem a hx))]

theorem flatten_map_nil {α β : Type*} :
    ∀ (l : List α), (l.map (fun _ => ([] : List β))).flatten = []
  | [] => rfl
  | _ :: as => by simp [flatten_map_nil as]

/-- A row with a missing cell sequences to `none`. -/
theorem seqRow_eq_none {row : List (Option ℝ)} :
    ∀ {j : ℕ}, row.get? j = some none → seqRow row = none := by
  induction row with
  | nil => intro j h; simp at h
  | cons a rest ih =>
    intro j h
    match a, j with
    | none, _ => rfl
    | some x, 0 => simp at h
    | some x, j + 1 =>
      simp only [List.get?_cons_succ] at h
      simp [seqRow, ih h]

/-- If some ticker column is missing in every downloaded row, the aligned
price table is empty. -/
theorem dropnaRows_eq_nil {raw : List (List (Option ℝ))} {j : ℕ}
    (h : ∀ row ∈ raw, row.get? j = some none) : dropnaRows raw = [] := by
  unfold dropnaRows
  rw [List.filterMap_eq_nil_iff]
  exact fun row hrow => seqRow_eq_none (h row hrow)

/-! ### §4  Claims about the Monte Carlo engine -/

/-- C1: for every valid invocation (positive `portfolio_value`, `years` and
`num_simulations`) the run succeeds and the output table has exactly
`num_simulations * len(tickers)` rows, one per (simulation, ticker) pair. -/
theorem C1_output_row_count (rng : Rng) (raw : List (List (Option ℝ)))
    (tickers : List String) {pv : ℝ} {years S : ℕ}
    (hpv : 0 < pv) (hy : 0 < years) (hS : 0 < S) :
    ∃ t, run_monte_carlo rng raw tickers pv years S = .ok t ∧
      t.length = S * tickers.length := by
  obtain ⟨t, ht⟩ := run_mc_isOk rng raw tickers S (ne_of_gt hpv) (Nat.pos_iff_ne_zero.mp hy)
  exact ⟨t, ht, (run_mc_ok_spec ht).1⟩

theorem C1_output_row_count_witness :
    ∃ t, run_monte_carlo rng0 [] ["AAPL", "MSFT"] 100 1 3 = .ok t ∧
      t.length = 3 * (["AAPL", "MSFT"] : List String).length :=
  C1_output_row_count rng0 [] ["AAPL", "MSFT"] (by norm_num) (by norm_num)
    (by norm_num)

/-- C2: in a successful run's output, the `id` of the row at flat position
`k` is `k` itself — a strictly increasing gap-free sequence from 0 in
emission order — and the row at position `s * N + i` belongs to simulation
`s` and ticker index `i`, with `id = s * N + i`. -/
theorem C2_id_sequence {rng : Rng} {raw : List (List (Option ℝ))}
    {tickers : List String} {pv : ℝ} {years S : ℕ} {t : List OutcomeRow}
    (h : run_monte_carlo rng raw tickers pv years S = .ok t) :
    (∀ k, k < t.length → (t.getD k default).id = k) ∧
      ∀ s i, s < S → i < tickers.length →
        (t.getD (s * tickers.length + i) default).id = s * tickers.length + i ∧
          (t.getD (s * tickers.length + i) default).simulation_id = s ∧
          (t.getD (s * tickers.length + i) default).ticker = tickers.getD i "" := by
  constructor
  · intro k hk
    unfold run_monte_carlo at h
    obtain ⟨rowss, _, ht⟩ := except_map_ok h
    subst ht
    have hk2 : k < rowss.flatten.length := by simpa using hk
    rw [enum_assign_getD hk2]
  · intro s i hs hi
    rw [(run_mc_ok_spec h).2 s i hs hi]
    simp [mcRow]

theorem C2_id_sequence_witness :
    ∃ t, run_monte_carlo rng0 [] ["A", "B"] 100 1 2 = .ok t ∧
      ((∀ k, k < t.length → (t.getD k default).id = k) ∧
        ∀ s i, s < 2 → i < (["A", "B"] : List String).length →
          (t.getD (s * (["A", "B"] : List String).length + i) default).id =
              s * (["A", "B"] : List String).length + i ∧
            (t.getD (s * (["A", "B"] : List String).length + i) default).simulation_id = s ∧
            (t.getD (s * (["A", "B"] : List String).length + i) default).ticker =
              (["A", "B"] : List String).getD i "") := by
  obtain ⟨t, ht⟩ := run_mc_isOk rng0 [] ["A", "B"] 2
    (by norm_num : (100 : ℝ) ≠ 0) (by norm_num : (1 : ℕ) ≠ 0)
  exact ⟨t, ht, C2_id_sequence ht⟩

/-- C3 as stated is false: `run_monte_carlo` performs no parameter
validation and no `InvalidParameterError` exists anywhere in the repository.
With an empty `tickers` list the run completes normally and returns an
empty table instead of failing. -/
theorem C3_counterexample :
    run_monte_carlo rng0 [] [] 100 10 5 = .ok [] := rfl

/-- C3 amended: the engine performs no fail-fast parameter validation.
An empty `tickers` list yields a successful run with an empty table, as does
`num_simulations = 0`; `years = 0` raises a `ZeroDivisionError` inside the
aggregation loop (after download and simulation), not an
`InvalidParameterError` before computation; non-positive `portfolio_value`
is not rejected. -/
theorem C3_amended :
    (∀ (rng : Rng) (raw : List (List (Option ℝ))) (pv : ℝ) (years S : ℕ),
        run_monte_carlo rng raw [] pv years S = .ok []) ∧
      (∀ (rng : Rng) (raw : List (List (Option ℝ))) (tickers : List String)
          (pv : ℝ) (years : ℕ),
        run_monte_carlo rng raw tickers pv years 0 = .ok []) ∧
      ∀ (rng : Rng) (raw : List (List (Option ℝ))) (tk : String)
          (rest : List String) (pv : ℝ) (S : ℕ), pv ≠ 0 → 0 < S →
        run_monte_carlo rng raw (tk :: rest) pv 0 S = .error "ZeroDivisionError" := by
  refine ⟨?_, ?_, ?_⟩
  · intro rng raw pv years S
    unfold run_monte_carlo
    have h1 := exceptMap_congr_ok
      (f := fun sim =>
        exceptMap
          (fun p =>
            simRow ([] : List String).length pv years S
              (simPath rng raw ([] : List String).length years sim) sim p.1 p.2)
          ([] : List String).enum)
      (c := ([] : List OutcomeRow)) (l := List.range S) (fun a _ => rfl)
    rw [h1]
    simp [Except.map, flatten_map_nil]
  · intro rng raw tickers pv years
    rfl
  · intro rng raw tk rest pv S hpv hS
    obtain ⟨T, rfl⟩ : ∃ T, S = T + 1 := ⟨S - 1, by omega⟩
    have hsv : pv / (((tk :: rest).length : ℕ) : ℝ) ≠ 0 :=
      div_ne_zero hpv (Nat.cast_ne_zero.mpr (by simp))
    have hrow :
        simRow (tk :: rest).length pv 0 (T + 1)
          (simPath rng raw (tk :: rest).length 0 0) 0 0 tk =
          .error "ZeroDivisionError" := by
      simp only [simRow]
      rw [if_neg hsv]
      simp
    unfold run_monte_carlo
    rw [List.range_eq_range', List.range'_succ]
    rw [exceptMap_error_cons]
    · rfl
    · have henum : (tk :: rest).enum = (0, tk) :: rest.enumFrom 1 := rfl
      rw [henum]
      exact exceptMap_error_cons hrow

theorem C3_amended_witness :
    run_monte_carlo rng0 [] [] 100 10 5 = .ok [] ∧
      run_monte_carlo rng0 [] ["A"] 100 10 0 = .ok [] ∧
      run_monte_carlo rng0 [] ["A"] 100 0 5 = .error "ZeroDivisionError" :=
  ⟨C3_amended.1 rng0 [] 100 10 5, C3_amended.2.1 rng0 [] ["A"] 100 10,
    C3_amended.2.2 rng0 [] "A" [] 100 5 (by norm_num) (by norm_num)⟩

/-- C4 as stated is false: on a request where the single ticker's history is
entirely missing (every downloaded cell `NaN`), the run does not fail with a
`MissingTickerDataError` naming the ticker — no such error class exists in
the repository.  In this embedding (total sampler) the concrete run returns
a table; on the real program the sampling library may instead fail with its
own `LinAlgError` on the all-NaN statistics, which is equally not a
`MissingTickerDataError`. -/
theorem C4_counterexample :
    (run_monte_carlo rng0 [[none], [none]] ["A"] 100 1 1).toOption ≠ none := by
  obtain ⟨t, ht⟩ := run_mc_isOk rng0 [[none], [none]] ["A"] 1
    (by norm_num : (100 : ℝ) ≠ 0) (by norm_num : (1 : ℕ) ≠ 0)
  rw [ht]
  simp [Except.toOption]

theorem except_map_error {ε α β : Type*} {E : Except ε α} {g : α → β} {e : ε}
    (h : E.map g = .error e) : E = .error e := by
  cases E with
  | error e2 => simpa [Except.map] using h
  | ok x => simp [Except.map] at h

theorem exceptMap_error_mem {α β ε : Type*} {f : α → Except ε β} {e : ε} :
    ∀ {l : List α}, exceptMap f l = .error e → ∃ a ∈ l, f a = .error e
  | [], h => by simp [exceptMap] at h
  | a :: as, h => by
    simp only [exceptMap] at h
    cases hfa : f a with
    | error e2 =>
      rw [hfa] at h
      have he : e2 = e := by simpa using h
      exact ⟨a, List.mem_cons_self a as, by rw [hfa, he]⟩
    | ok b =>
      rw [hfa] at h
      cases hrec : exceptMap f as with
      | error e2 =>
        rw [hrec] at h
        have he : e2 = e := by simpa using h
        obtain ⟨x, hx, hfx⟩ := exceptMap_error_mem (he ▸ hrec)
        exact ⟨x, List.mem_cons_of_mem a hx, hfx⟩
      | ok bs =>
        rw [hrec] at h
        simp at h

/-- The loop body can only raise `ZeroDivisionError` (its two division
guards); no other exception text exists in the engine's own code. -/
theorem simRow_error_eq {N : ℕ} {pv : ℝ} {years S : ℕ}
    {simulated : List (List ℝ)} {sim i : ℕ} {tk : String} {e : String}
    (h : simRow N pv years S simulated sim i tk = .error e) :
    e = "ZeroDivisionError" := by
  simp only [simRow] at h
  split at h
  · simpa using h.symm
  · split at h
    · simpa using h.symm
    · simp at h

/-- Every error a run can raise is a `ZeroDivisionError`: in particular no
run ever fails with an error naming a ticker. -/
theorem run_mc_error_eq {rng : Rng} {raw : List (List (Option ℝ))}
    {tickers : List String} {pv : ℝ} {years S : ℕ} {e : String}
    (h : run_monte_carlo rng raw tickers pv years S = .error e) :
    e = "ZeroDivisionError" := by
  unfold run_monte_carlo at h
  obtain ⟨sim, _, hsim⟩ := exceptMap_error_mem (except_map_error h)
  obtain ⟨p, _, hp⟩ := exceptMap_error_mem hsim
  exact simRow_error_eq hp

/-- C4 amended: when some requested ticker has an all-missing history, the
aligned price table (the `dropna` of the download) is empty, and
`run_monte_carlo` raises no `MissingTickerDataError` naming the ticker — no
such error class exists in the repository.  The only exception the engine's
own code can raise on such a run is `ZeroDivisionError`; a failure of the
sampling library on the degenerate NaN statistics (outside this embedding's
total oracle) is likewise not an error naming the ticker. -/
theorem C4_amended (rng : Rng) (raw : List (List (Option ℝ)))
    (tickers : List String) (S j : ℕ)
    (hj : j < tickers.length)
    (hmiss : ∀ row ∈ raw, row.get? j = some none) :
    dropnaRows raw = [] ∧
      ∀ (pv : ℝ) (years : ℕ) (e : String),
        run_monte_carlo rng raw tickers pv years S = .error e →
          e = "ZeroDivisionError" := by
  refine ⟨dropnaRows_eq_nil hmiss, ?_⟩
  intro pv years e h
  exact run_mc_error_eq h

theorem C4_amended_witness :
    dropnaRows [[none], [none]] = [] ∧
      ∀ (pv : ℝ) (years : ℕ) (e : String),
        run_monte_carlo rng0 [[none], [none]] ["A"] pv years 2 = .error e →
          e = "ZeroDivisionError" := by
  refine C4_amended rng0 [[none], [none]] ["A"] 2 0 (by norm_num) ?_
  intro row hrow
  simp only [List.mem_cons, List.not_mem_nil, or_false] at hrow
  rcases hrow with rfl | rfl <;> rfl

/-- C5: in every output row of a successful run, the ending value is the
starting value times `exp` of the sum of that simulation's daily log returns
in that ticker's column — equivalently, times the product of each day's
exponentiated return (the form the source computes). -/
theorem C5_ending_value {rng : Rng} {raw : List (List (Option ℝ))}
    {tickers : List String} {pv : ℝ} {years S : ℕ} {t : List OutcomeRow}
    (h : run_monte_carlo rng raw tickers pv years S = .ok t) :
    ∀ s i, s < S → i < tickers.length →
      (t.getD (s * tickers.length + i) default).ending_value =
          (t.getD (s * tickers.length + i) default).starting_value *
            Real.exp ((tickerColumn (simPath rng raw tickers.length years s) i).sum) ∧
        (t.getD (s * tickers.length + i) default).ending_value =
          (t.getD (s * tickers.length + i) default).starting_value *
            ((tickerColumn (simPath rng raw tickers.length years s) i).map
                Real.exp).prod := by
  intro s i hs hi
  rw [(run_mc_ok_spec h).2 s i hs hi]
  simp only [mcRow]
  exact ⟨by rw [Real.exp_list_sum], trivial⟩

theorem C5_ending_value_witness :
    ∃ t, run_monte_carlo rng0 [] ["A"] 100 1 1 = .ok t ∧
      ((t.getD (0 * (["A"] : List String).length + 0) default).ending_value =
          (t.getD (0 * (["A"] : List String).length + 0) default).starting_value *
            Real.exp ((tickerColumn (simPath rng0 [] (["A"] : List String).length 1 0) 0).sum) ∧
        (t.getD (0 * (["A"] : List String).length + 0) default).ending_value =
          (t.getD (0 * (["A"] : List String).length + 0) default).starting_value *
            ((tickerColumn (simPath rng0 [] (["A"] : List String).length 1 0) 0).map
                Real.exp).prod) := by
  obtain ⟨t, ht⟩ := run_mc_isOk rng0 [] ["A"] 1
    (by norm_num : (100 : ℝ) ≠ 0) (by norm_num : (1 : ℕ) ≠ 0)
  exact ⟨t, ht, C5_ending_value ht 0 0 (by norm_num) (by norm_num)⟩

/-- C6: in every output row of a successful run, `cumulative_return` equals
`ending_value / starting_value - 1`, and `annual_return` equals
`(1 + cumulative_return) ^ (1 / years) - 1` — both as exact real identities,
hence within any tolerance. -/
theorem C6_return_consistency {rng : Rng} {raw : List (List (Option ℝ))}
    {tickers : List String} {pv : ℝ} {years S : ℕ} {t : List OutcomeRow}
    (h : run_monte_carlo rng raw tickers pv years S = .ok t) :
    ∀ s i, s < S → i < tickers.length →
      (t.getD (s * tickers.length + i) default).cumulative_return =
          (t.getD (s * tickers.length + i) default).ending_value /
              (t.getD (s * tickers.length + i) default).starting_value - 1 ∧
        (t.getD (s * tickers.length + i) default).annual_return =
          (1 + (t.getD (s * tickers.length + i) default).cumulative_return) ^
              ((1 : ℝ) / years) - 1 := by
  intro s i hs hi
  rw [(run_mc_ok_spec h).2 s i hs hi]
  simp only [mcRow]
  refine ⟨trivial, ?_⟩
  have hbase : ∀ x : ℝ, 1 + (x - 1) = x := fun x => by ring
  rw [hbase]

theorem C6_return_consistency_witness :
    ∃ t, run_monte_carlo rng0 [] ["A"] 100 1 1 = .ok t ∧
      ((t.getD (0 * (["A"] : List String).length + 0) default).cumulative_return =
          (t.getD (0 * (["A"] : List String).length + 0) default).ending_value /
              (t.getD (0 * (["A"] : List String).length + 0) default).starting_value - 1 ∧
        (t.getD (0 * (["A"] : List String).length + 0) default).annual_return =
          (1 + (t.getD (0 * (["A"] : List String).length + 0) default).cumulative_return) ^
              ((1 : ℝ) / (1 : ℕ)) - 1) := by
  obtain ⟨t, ht⟩ := run_mc_isOk rng0 [] ["A"] 1
    (by norm_num : (100 : ℝ) ≠ 0) (by norm_num : (1 : ℕ) ≠ 0)
  exact ⟨t, ht, C6_return_consistency ht 0 0 (by norm_num) (by norm_num)⟩

/-- An oracle respecting numpy's output shape, for witnesses: the draw for
`num_days` is a `num_days`-row matrix. -/
def rngShaped : Rng := fun _ _ _ d => List.replicate d []

/-- C7: in every output row of a successful run (with a sampler returning
`num_days` rows, as `np.random.multivariate_normal` does), the volatility is
the population standard deviation of the row's `num_days = years * 252`
simulated daily log returns — squared deviations averaged over `num_days`,
not `num_days - 1` — multiplied by `sqrt 252`. -/
theorem C7_volatility {rng : Rng} {raw : List (List (Option ℝ))}
    {tickers : List String} {pv : ℝ} {years S : ℕ} {t : List OutcomeRow}
    (hrng : ∀ s m c d, (rng s m c d).length = d)
    (h : run_monte_carlo rng raw tickers pv years S = .ok t) :
    ∀ s i, s < S → i < tickers.length →
      (tickerColumn (simPath rng raw tickers.length years s) i).length =
          years * 252 ∧
        (t.getD (s * tickers.length + i) default).volatility =
          Real.sqrt
              (((tickerColumn (simPath rng raw tickers.length years s) i).map
                    (fun x =>
                      (x - (tickerColumn (simPath rng raw tickers.length years s) i).sum /
                          ((years * 252 : ℕ) : ℝ)) ^ 2)).sum /
                ((years * 252 : ℕ) : ℝ)) *
            Real.sqrt 252 := by
  intro s i hs hi
  have hlen : (tickerColumn (simPath rng raw tickers.length years s) i).length =
      years * 252 := by
    simp [tickerColumn, simPath, hrng]
  refine ⟨hlen, ?_⟩
  rw [(run_mc_ok_spec h).2 s i hs hi]
  simp only [mcRow, npStd, hlen]

theorem C7_volatility_witness :
    ∃ t, run_monte_carlo rngShaped [] ["A"] 100 1 1 = .ok t ∧
      ((tickerColumn (simPath rngShaped [] (["A"] : List String).length 1 0) 0).length =
          1 * 252 ∧
        (t.getD (0 * (["A"] : List String).length + 0) default).volatility =
          Real.sqrt
              (((tickerColumn (simPath rngShaped [] (["A"] : List String).length 1 0) 0).map
                    (fun x =>
                      (x - (tickerColumn (simPath rngShaped [] (["A"] : List String).length 1 0) 0).sum /
                          ((1 * 252 : ℕ) : ℝ)) ^ 2)).sum /
                ((1 * 252 : ℕ) : ℝ)) *
            Real.sqrt 252) := by
  obtain ⟨t, ht⟩ := run_mc_isOk rngShaped [] ["A"] 1
    (by norm_num : (100 : ℝ) ≠ 0) (by norm_num : (1 : ℕ) ≠ 0)
  exact ⟨t, ht, C7_volatility (fun s m c d => by simp [rngShaped]) ht 0 0
    (by norm_num) (by norm_num)⟩

/-- C8: the engine is deterministic in its random source: two runs with
extensionally equal random streams (the same seed) and identical parameters
and input price data return identical output tables. -/
theorem C8_determinism (rngA rngB : Rng) (raw : List (List (Option ℝ)))
    (tickers : List String) (pv : ℝ) (years S : ℕ)
    (h : ∀ s m c d, rngA s m c d = rngB s m c d) :
    run_monte_carlo rngA raw tickers pv years S =
      run_monte_carlo rngB raw tickers pv years S := by
  have he : rngA = rngB :=
    funext fun s => funext fun m => funext fun c => funext fun d => h s m c d
  rw [he]

theorem C8_determinism_witness :
    run_monte_carlo rng0 [] ["A"] 100 1 1 = run_monte_carlo rng0 [] ["A"] 100 1 1 :=
  C8_determinism rng0 rng0 [] ["A"] 100 1 1 (fun _ _ _ _ => rfl)

/-! ### §5  The cleaning stage `clean_stock_data` -/

/-- One row of the stock table handled by `clean_stock_data`.  Tickers are
modelled as lists of character codes (`.str.upper()` maps each code), dates
as integers (the `pd.to_datetime(...).dt.date` normalization keeps only the
date part, which the model's date values already are, so it is the identity
here), prices and volume as optional rationals (`none` models a NaN cell;
Python floats are a subset of ℚ and the pipeline only compares and truncates
them, so ℚ is exact and keeps everything decidable). -/
structure StockRow where
  ticker : List ℕ
  date : ℤ
  open_ : Option ℚ
  high : Option ℚ
  low : Option ℚ
  close : Option ℚ
  adj_close : Option ℚ
  volume : Option ℚ
deriving DecidableEq, Repr

/-- ASCII upper-casing of one character code (Python `str.upper` on the
ticker symbols). -/
def upperCode (c : ℕ) : ℕ := if 97 ≤ c ∧ c ≤ 122 then c - 32 else c

/-- `df['ticker'] = df['ticker'].astype(str).str.upper()`. -/
def rowUpper (r : StockRow) : StockRow :=
  { r with ticker := r.ticker.map upperCode }

/-- `df.dropna(subset=price_cols)`: all five price cells present. -/
def pricesPresent (r : StockRow) : Bool :=
  r.open_.isSome && r.high.isSome && r.low.isSome && r.close.isSome &&
    r.adj_close.isSome

/-- The combined high/low sanity filter of the source, in its order:
`high >= low`, `high >= open`, `high >= close`, `low <= open`,
`low <= close` (a NaN cell compares as the default 0, but such rows were
already removed by `dropna`). -/
def hlOk (r : StockRow) : Bool :=
  decide (r.low.getD 0 ≤ r.high.getD 0) &&
    decide (r.open_.getD 0 ≤ r.high.getD 0) &&
    decide (r.close.getD 0 ≤ r.high.getD 0) &&
    decide (r.low.getD 0 ≤ r.open_.getD 0) &&
    decide (r.low.getD 0 ≤ r.close.getD 0)

/-- Python's `astype(int)` float-to-int conversion: truncation toward 0. -/
def truncQ (q : ℚ) : ℤ := if 0 ≤ q then ⌊q⌋ else ⌈q⌉

/-- `df['volume'] = df['volume'].fillna(0); df['volume'] =
df['volume'].astype(int)`. -/
def rowVolume (r : StockRow) : StockRow :=
  { r with volume := some ((truncQ (r.volume.getD 0) : ℤ) : ℚ) }

/-- The duplicate key of `drop_duplicates(subset=['ticker', 'date'])`. -/
def rowKey (r : StockRow) : List ℕ × ℤ := (r.ticker, r.date)

/-- `df.drop_duplicates(subset=['ticker', 'date'], keep='first')`: keep a row
iff its key was not seen on an earlier row. -/
def dedupBy (seen : List (List ℕ × ℤ)) : List StockRow → List StockRow
  | [] => []
  | r :: rs =>
    if rowKey r ∈ seen then dedupBy seen rs
    else r :: dedupBy (rowKey r :: seen) rs

/-- Lexicographic strict order on ticker codes (pandas compares the ticker
strings lexicographically). -/
def lexLtB : List ℕ → List ℕ → Bool
  | [], [] => false
  | [], _ :: _ => true
  | _ :: _, [] => false
  | a :: as, b :: bs =>
    if a < b then true
    else if a = b then lexLtB as bs
    else false

/-- The sort key order of `df.sort_values(['ticker', 'date'])`: ticker-major,
date-minor. -/
def rowLE (x y : StockRow) : Prop :=
  lexLtB x.ticker y.ticker = true ∨ (x.ticker = y.ticker ∧ x.date ≤ y.date)

instance : DecidableRel rowLE := fun x y => by
  unfold rowLE; infer_instance

/-- The body of `clean_stock_data` after its empty-frame early return, in the
source's operation order.  The `date` normalization is the identity on this
model's already-date-typed values. -/
def cleanSteps (df : List StockRow) : List StockRow :=
  List.insertionSort rowLE
    (dedupBy []
      ((((((((((df.map rowUpper).filter pricesPresent).filter
                        (fun r => decide (0 < r.open_.getD 0))).filter
                      (fun r => decide (0 < r.high.getD 0))).filter
                    (fun r => decide (0 < r.low.getD 0))).filter
                  (fun r => decide (0 < r.close.getD 0))).filter
                (fun r => decide (0 < r.adj_close.getD 0))).filter hlOk).map
            rowVolume).filter
        (fun r => decide (0 ≤ r.volume.getD 0))))

/-- `clean_stock_data`: early return for an empty frame, otherwise the
cleaning pipeline. -/
def clean_stock_data (df : List StockRow) : List StockRow :=
  if df = [] then df else cleanSteps df

/-! ### §6  Order lemmas for the sort relation -/

theorem lexLtB_trans :
    ∀ {a b c : List ℕ}, lexLtB a b = true → lexLtB b c = true →
      lexLtB a c = true
  | [], [], _, hab, _ => by simp [lexLtB] at hab
  | [], _ :: _, [], _, hbc => by simp [lexLtB] at hbc
  | [], _ :: _, _ :: _, _, _ => rfl
  | _ :: _, [], _, hab, _ => by simp [lexLtB] at hab
  | _ :: _, _ :: _, [], _, hbc => by simp [lexLtB] at hbc
  | a :: as, b :: bs, c :: cs, hab, hbc => by
    simp only [lexLtB] at hab hbc ⊢
    by_cases h1 : a < b
    · by_cases h3 : b < c
      · rw [if_pos (by omega : a < c)]
      · rw [if_neg h3] at hbc
        by_cases h4 : b = c
        · subst h4
          rw [if_pos h1]
        · rw [if_neg h4] at hbc
          exact absurd hbc (by simp)
    · rw [if_neg h1] at hab
      by_cases h2 : a = b
      · subst h2
        rw [if_pos rfl] at hab
        by_cases h3 : a < c
        · rw [if_pos h3]
        · rw [if_neg h3] at hbc ⊢
          by_cases h4 : a = c
          · rw [if_pos h4] at hbc ⊢
            exact lexLtB_trans hab hbc
          · rw [if_neg h4] at hbc
            exact absurd hbc (by simp)
      · rw [if_neg h2] at hab
        exact absurd hab (by simp)

theorem lexLtB_total :
    ∀ a b : List ℕ, lexLtB a b = true ∨ a = b ∨ lexLtB b a = true
  | [], [] => Or.inr (Or.inl rfl)
  | [], _ :: _ => Or.inl rfl
  | _ :: _, [] => Or.inr (Or.inr rfl)
  | a :: as, b :: bs => by
    rcases Nat.lt_trichotomy a b with h | h | h
    · left; simp [lexLtB, h]
    · subst h
      rcases lexLtB_total as bs with h2 | h2 | h2
      · left; simp [lexLtB, h2]
      · right; left; rw [h2]
      · right; right; simp [lexLtB, h2]
    · right; right; simp [lexLtB, h]

instance : IsTrans StockRow rowLE :=
  ⟨by
    intro a b c hab hbc
    rcases hab with hab | ⟨hab, hd1⟩
    · rcases hbc with hbc | ⟨hbc, _⟩
      · exact Or.inl (lexLtB_trans hab hbc)
      · exact Or.inl (hbc ▸ hab)
    · rcases hbc with hbc | ⟨hbc, hd2⟩
      · exact Or.inl (hab ▸ hbc)
      · exact Or.inr ⟨hab.trans hbc, hd1.trans hd2⟩⟩

instance : IsTotal StockRow rowLE :=
  ⟨by
    intro a b
    rcases lexLtB_total a.ticker b.ticker with h | h | h
    · exact Or.inl (Or.inl h)
    · rcases le_total a.date b.date with hd | hd
      · exact Or.inl (Or.inr ⟨h, hd⟩)
      · exact Or.inr (Or.inr ⟨h.symm, hd⟩)
    · exact Or.inr (Or.inl h)⟩

/-! ### §7  Invariant lemmas for the cleaning pipeline -/

theorem upperCode_idem (c : ℕ) : upperCode (upperCode c) = upperCode c := by
  unfold upperCode
  split_ifs <;> omega

theorem map_eq_self {α : Type*} {f : α → α} :
    ∀ {l : List α}, (∀ a ∈ l, f a = a) → l.map f = l
  | [], _ => rfl
  | a :: as, h => by
    rw [List.map_cons, h a (List.mem_cons_self a as),
      map_eq_self (fun x hx => h x (List.mem_cons_of_mem a hx))]

theorem truncQ_intCast (n : ℤ) : truncQ (n : ℚ) = n := by
  unfold truncQ
  split_ifs
  · exact Int.floor_intCast n
  · exact Int.ceil_intCast n

theorem rowUpper_eq_self {r : StockRow} (h : r.ticker.map upperCode = r.ticker) :
    rowUpper r = r := by
  unfold rowUpper
  rw [h]

theorem rowVolume_eq_self {r : StockRow} {n : ℤ} (h : r.volume = some (n : ℚ)) :
    rowVolume r = r := by
  unfold rowVolume
  have hv : some ((truncQ (r.volume.getD 0) : ℤ) : ℚ) = r.volume := by
    rw [h]
    simp [truncQ_intCast]
  rw [hv]

theorem dedupBy_subset :
    ∀ (seen : List (List ℕ × ℤ)) (l : List StockRow) (r : StockRow),
      r ∈ dedupBy seen l → r ∈ l
  | _, [], _, hr => by simp [dedupBy] at hr
  | seen, x :: xs, r, hr => by
    by_cases h : rowKey x ∈ seen
    · rw [dedupBy, if_pos h] at hr
      exact List.mem_cons_of_mem x (dedupBy_subset seen xs r hr)
    · rw [dedupBy, if_neg h] at hr
      rcases List.mem_cons.mp hr with rfl | hr
      · exact List.mem_cons_self r xs
      · exact List.mem_cons_of_mem x (dedupBy_subset _ xs r hr)

theorem dedupBy_pairwise :
    ∀ (seen : List (List ℕ × ℤ)) (l : List StockRow),
      (dedupBy seen l).Pairwise (fun a b => rowKey a ≠ rowKey b) ∧
        ∀ r ∈ dedupBy seen l, rowKey r ∉ seen
  | _, [] => ⟨List.Pairwise.nil, by simp [dedupBy]⟩
  | seen, x :: xs => by
    by_cases h : rowKey x ∈ seen
    · rw [dedupBy, if_pos h]
      exact dedupBy_pairwise seen xs
    · rw [dedupBy, if_neg h]
      obtain ⟨hp, hs⟩ := dedupBy_pairwise (rowKey x :: seen) xs
      refine ⟨List.Pairwise.cons ?_ hp, ?_⟩
      · intro y hy
        have := hs y hy
        simp only [List.mem_cons, not_or] at this
        exact fun hxy => this.1 hxy.symm
      · intro r hr
        rcases List.mem_cons.mp hr with rfl | hr
        · exact h
        · exact fun hrs => (hs r hr) (List.mem_cons_of_mem _ hrs)

theorem dedupBy_eq_self :
    ∀ {seen : List (List ℕ × ℤ)} {l : List StockRow},
      l.Pairwise (fun a b => rowKey a ≠ rowKey b) →
      (∀ r ∈ l, rowKey r ∉ seen) → dedupBy seen l = l
  | _, [], _, _ => rfl
  | seen, x :: xs, hp, hs => by
    rw [dedupBy, if_neg (hs x (List.mem_cons_self x xs))]
    obtain ⟨hhead, htail⟩ := List.pairwise_cons.mp hp
    rw [dedupBy_eq_self htail ?_]
    intro r hr
    simp only [List.mem_cons, not_or]
    exact ⟨fun he => hhead r hr he.symm, hs r (List.mem_cons_of_mem x hr)⟩

/-- Every cell of an `Option ℚ` that compares strictly above the NaN default
is a present positive value. -/
theorem getD_pos_some {o : Option ℚ} (h : 0 < o.getD 0) :
    ∃ v, o = some v ∧ 0 < v := by
  cases o with
  | none => exact absurd h (by simp)
  | some v => exact ⟨v, rfl, h⟩

/-- The facts true of every row that survives the cleaning pipeline. -/
theorem cleanSteps_mem_facts {df : List StockRow} {r : StockRow}
    (hr : r ∈ cleanSteps df) :
    rowUpper r = r ∧ pricesPresent r = true ∧
      (0 < r.open_.getD 0 ∧ 0 < r.high.getD 0 ∧ 0 < r.low.getD 0 ∧
        0 < r.close.getD 0 ∧ 0 < r.adj_close.getD 0) ∧
      hlOk r = true ∧ rowVolume r = r ∧
      ∃ n : ℤ, r.volume = some (n : ℚ) ∧ 0 ≤ n := by
  unfold cleanSteps at hr
  rw [List.mem_insertionSort] at hr
  have hr9 := dedupBy_subset _ _ _ hr
  simp only [List.mem_filter, List.mem_map, decide_eq_true_eq] at hr9
  obtain ⟨⟨r8, hr8, rfl⟩, hvol⟩ := hr9
  obtain ⟨⟨⟨⟨⟨⟨⟨⟨r0, _, rfl⟩, hps⟩, hop⟩, hhi⟩, hlo⟩, hcl⟩, hadj⟩, hhl⟩ := hr8
  refine ⟨?_, ?_, ⟨hop, hhi, hlo, hcl, hadj⟩, ?_, ?_, ?_⟩
  · apply rowUpper_eq_self
    show ((r0.ticker.map upperCode).map upperCode) = r0.ticker.map upperCode
    rw [List.map_map]
    exact List.map_congr_left (fun c _ => upperCode_idem c)
  · exact hps
  · exact hhl
  · exact rowVolume_eq_self (n := truncQ ((rowUpper r0).volume.getD 0)) rfl
  · refine ⟨truncQ ((rowUpper r0).volume.getD 0), rfl, ?_⟩
    have hc : ((truncQ ((rowUpper r0).volume.getD 0) : ℤ) : ℚ) =
        (rowVolume (rowUpper r0)).volume.getD 0 := rfl
    rw [← hc] at hvol
    exact_mod_cast hvol

theorem cleanSteps_pairwise (df : List StockRow) :
    (cleanSteps df).Pairwise (fun a b => rowKey a ≠ rowKey b) := by
  unfold cleanSteps
  refine ((List.perm_insertionSort rowLE _).pairwise_iff ?_).mpr
    (dedupBy_pairwise [] _).1
  intro a b hab he
  exact hab he.symm

theorem cleanSteps_sorted (df : List StockRow) :
    (cleanSteps df).Sorted rowLE :=
  List.sorted_insertionSort rowLE _

theorem cleanSteps_eq_self {l : List StockRow}
    (hfacts : ∀ r ∈ l,
      rowUpper r = r ∧ pricesPresent r = true ∧
        (0 < r.open_.getD 0 ∧ 0 < r.high.getD 0 ∧ 0 < r.low.getD 0 ∧
          0 < r.close.getD 0 ∧ 0 < r.adj_close.getD 0) ∧
        hlOk r = true ∧ rowVolume r = r ∧
        ∃ n : ℤ, r.volume = some (n : ℚ) ∧ 0 ≤ n)
    (hpair : l.Pairwise (fun a b => rowKey a ≠ rowKey b))
    (hsort : l.Sorted rowLE) :
    cleanSteps l = l := by
  unfold cleanSteps
  rw [map_eq_self (fun r hr => (hfacts r hr).1)]
  rw [List.filter_eq_self.mpr (fun r hr => (hfacts r hr).2.1)]
  rw [List.filter_eq_self.mpr (fun r hr =>
    decide_eq_true_eq.mpr (hfacts r hr).2.2.1.1)]
  rw [List.filter_eq_self.mpr (fun r hr =>
    decide_eq_true_eq.mpr (hfacts r hr).2.2.1.2.1)]
  rw [List.filter_eq_self.mpr (fun r hr =>
    decide_eq_true_eq.mpr (hfacts r hr).2.2.1.2.2.1)]
  rw [List.filter_eq_self.mpr (fun r hr =>
    decide_eq_true_eq.mpr (hfacts r hr).2.2.1.2.2.2.1)]
  rw [List.filter_eq_self.mpr (fun r hr =>
    decide_eq_true_eq.mpr (hfacts r hr).2.2.1.2.2.2.2)]
  rw [List.filter_eq_self.mpr (fun r hr => (hfacts r hr).2.2.2.1)]
  rw [map_eq_self (fun r hr => (hfacts r hr).2.2.2.2.1)]
  rw [List.filter_eq_self.mpr ?_]
  · rw [dedupBy_eq_self hpair (by simp), hsort.insertionSort_eq]
  · intro r hr
    obtain ⟨n, hn, hn0⟩ := (hfacts r hr).2.2.2.2.2
    rw [decide_eq_true_eq, hn]
    simpa using hn0

/-! ### §8  Claims about the cleaning stage -/

/-- C9: every row of `clean_stock_data`'s output has strictly positive
open/high/low/close/adj_close prices, a present non-negative integer volume,
satisfies `high ≥ low`, `high ≥ open`, `high ≥ close`, `low ≤ open`,
`low ≤ close`, and the output has no duplicate (ticker, date) key and is
sorted by ticker then date. -/
theorem C9_clean_invariants (df : List StockRow) :
    (∀ r ∈ clean_stock_data df,
        (∃ v, r.open_ = some v ∧ 0 < v) ∧
          (∃ v, r.high = some v ∧ 0 < v) ∧
          (∃ v, r.low = some v ∧ 0 < v) ∧
          (∃ v, r.close = some v ∧ 0 < v) ∧
          (∃ v, r.adj_close = some v ∧ 0 < v) ∧
          (∃ n : ℤ, r.volume = some (n : ℚ) ∧ 0 ≤ n) ∧
          r.low.getD 0 ≤ r.high.getD 0 ∧
          r.open_.getD 0 ≤ r.high.getD 0 ∧
          r.close.getD 0 ≤ r.high.getD 0 ∧
          r.low.getD 0 ≤ r.open_.getD 0 ∧
          r.low.getD 0 ≤ r.close.getD 0) ∧
      (clean_stock_data df).Pairwise (fun a b => rowKey a ≠ rowKey b) ∧
      (clean_stock_data df).Sorted rowLE := by
  unfold clean_stock_data
  split_ifs with h
  · subst h
    exact ⟨by simp, List.Pairwise.nil, List.sorted_nil⟩
  · refine ⟨?_, cleanSteps_pairwise df, cleanSteps_sorted df⟩
    intro r hr
    obtain ⟨_, _, ⟨hop, hhi, hlo, hcl, hadj⟩, hhl, _, hvol⟩ :=
      cleanSteps_mem_facts hr
    simp only [hlOk, Bool.and_eq_true, decide_eq_true_eq] at hhl
    obtain ⟨⟨⟨⟨h1, h2⟩, h3⟩, h4⟩, h5⟩ := hhl
    exact ⟨getD_pos_some hop, getD_pos_some hhi, getD_pos_some hlo,
      getD_pos_some hcl, getD_pos_some hadj, hvol, h1, h2, h3, h4, h5⟩

/-- A concrete raw row (lowercase ticker "a", fractional-free prices). -/
def sampleRow : StockRow :=
  { ticker := [97], date := 0, open_ := some 1, high := some 2, low := some 1,
    close := some 2, adj_close := some 1, volume := some 3 }

/-- The cleaned form of `sampleRow`: upper-cased ticker, integer volume. -/
def cleanedSample : StockRow :=
  { ticker := [65], date := 0, open_ := some 1, high := some 2, low := some 1,
    close := some 2, adj_close := some 1, volume := some ((3 : ℤ) : ℚ) }

theorem C9_clean_invariants_witness :
    ((∃ v, cleanedSample.open_ = some v ∧ 0 < v) ∧
        (∃ v, cleanedSample.high = some v ∧ 0 < v) ∧
        (∃ v, cleanedSample.low = some v ∧ 0 < v) ∧
        (∃ v, cleanedSample.close = some v ∧ 0 < v) ∧
        (∃ v, cleanedSample.adj_close = some v ∧ 0 < v) ∧
        (∃ n : ℤ, cleanedSample.volume = some (n : ℚ) ∧ 0 ≤ n) ∧
        cleanedSample.low.getD 0 ≤ cleanedSample.high.getD 0 ∧
        cleanedSample.open_.getD 0 ≤ cleanedSample.high.getD 0 ∧
        cleanedSample.close.getD 0 ≤ cleanedSample.high.getD 0 ∧
        cleanedSample.low.getD 0 ≤ cleanedSample.open_.getD 0 ∧
        cleanedSample.low.getD 0 ≤ cleanedSample.close.getD 0) ∧
      (clean_stock_data [sampleRow]).Pairwise (fun a b => rowKey a ≠ rowKey b) ∧
      (clean_stock_data [sampleRow]).Sorted rowLE := by
  obtain ⟨h1, h2, h3⟩ := C9_clean_invariants [sampleRow]
  exact ⟨h1 cleanedSample (by decide), h2, h3⟩

/-- C10: `clean_stock_data` is idempotent — cleaning an already cleaned
table changes nothing: upper-casing, the NaN/price/volume filters, the
volume truncation, the deduplication and the sort are all the identity on
the pipeline's own output. -/
theorem C10_clean_idempotent (df : List StockRow) :
    clean_stock_data (clean_stock_data df) = clean_stock_data df := by
  by_cases h1 : df = []
  · subst h1
    rfl
  · have hout : clean_stock_data df = cleanSteps df := if_neg h1
    rw [hout]
    by_cases h2 : cleanSteps df = []
    · unfold clean_stock_data
      rw [if_pos h2]
    · unfold clean_stock_data
      rw [if_neg h2]
      exact cleanSteps_eq_self (fun r hr => cleanSteps_mem_facts hr)
        (cleanSteps_pairwise df) (cleanSteps_sorted df)

end StockCast
